import Mathlib

/-!
# Verification of CharLib's characterizer

Shallow embedding of `src/characterizer/TestManager.py` (CharLib): the
sweep-list setters, the setup/hold binary-search bound setters, the
measurement-threshold selection of the delay trials, the simulator-call
structure of `characterize`, subcircuit wiring, worst-case harness
selection, timing-table assembly, and the setup/hold binary search.

Machine floats of the source are modelled as `ℚ`; Python exceptions as an
explicit error type; the external SPICE simulator as an oracle function.
-/

/-- Exceptions raised by the characterizer code.  `valueError`/`typeError`
mirror Python's `ValueError`/`TypeError` raised by the setters;
`wiringError` is the `ValueError("Failed to match all ports ...")` raised
when subcircuit wiring cannot match every port (the spec's `WiringError`);
`invalidState` is the `ValueError("Invalid state ...")` for a stable port
with a state other than '0'/'1'; `nameError` is the `NameError` the
setup/hold binary search catches when a trial's simulator measurement does
not converge. -/
inductive CharError
  | valueError (msg : String)
  | typeError (msg : String)
  | wiringError
  | invalidState (port : String)
  | nameError
deriving DecidableEq

/-- `TestManager.add_in_slew` (TestManager.py lines 218-220): appends
`float(value)` to `self._in_slews`.  The source performs no validation. -/
def add_in_slew (in_slews : List ℚ) (value : ℚ) : List ℚ :=
  in_slews ++ [value]

/-- `TestManager.add_out_load` (lines 227-229): appends `float(value)` to
`self._out_loads`.  The source performs no validation. -/
def add_out_load (out_loads : List ℚ) (value : ℚ) : List ℚ :=
  out_loads ++ [value]

/-- A value passed to one of the numeric-or-auto configuration setters: a
Python `int`/`float`, the string `'auto'`, or anything else (which the
setters reject with a `TypeError`). -/
inductive SetterValue
  | num (v : ℚ)
  | auto
  | other
deriving DecidableEq

/-- Python's builtin `max` over a list, as used on the (nonempty, guarded)
slew-rate lists.  The `[]` case is unreachable in all uses here. -/
def pymax : List ℚ → ℚ
  | [] => 0
  | x :: xs => xs.foldl max x

/-- Python's builtin `min` over a list. -/
def pymin : List ℚ → ℚ
  | [] => 0
  | x :: xs => xs.foldl min x

/-- `SequentialTestManager.sim_setup_lowest` setter (lines 721-735). -/
def set_sim_setup_lowest (in_slews : List ℚ) (value : SetterValue) :
    Except CharError ℚ :=
  match value with
  | .num v =>
    if v > 0 then .ok v
    else .error (.valueError "sim_setup_lowest must be greater than zero")
  | .auto =>
    if in_slews = [] then
      .error (.valueError "Cannot use auto for sim_setup_lowest unless in_slews is set first!")
    else .ok (pymax in_slews * (-10))
  | .other => .error (.typeError "Invalid type for sim_setup_lowest")

/-- `SequentialTestManager.sim_hold_lowest` setter (lines 782-796). -/
def set_sim_hold_lowest (in_slews : List ℚ) (value : SetterValue) :
    Except CharError ℚ :=
  match value with
  | .num v =>
    if v > 0 then .ok v
    else .error (.valueError "sim_hold_lowest must be greater than zero")
  | .auto =>
    if in_slews = [] then
      .error (.valueError "Cannot use auto for sim_hold_lowest unless in_slews is set first!")
    else .ok (pymin in_slews * (-10))
  | .other => .error (.typeError "Invalid type for sim_hold_lowest")

/-- The pair of hold-search bound attributes of a `SequentialTestManager`:
`self._sim_hold_lowest` and `self._sim_hold_highest`. -/
structure HoldBounds where
  sim_hold_lowest : ℚ
  sim_hold_highest : ℚ
deriving DecidableEq

/-- `SequentialTestManager.sim_hold_highest` setter (lines 802-816).  Note
line 812 of the source: in the `'auto'` branch the assignment target is
`self._sim_hold_lowest`, not `self._sim_hold_highest`, even though the
branch's own comment reads "Use 10 * max slew rate" for the highest
bound. -/
def set_sim_hold_highest (st : HoldBounds) (in_slews : List ℚ)
    (value : SetterValue) : Except CharError HoldBounds :=
  match value with
  | .num v =>
    if v > 0 then .ok { st with sim_hold_highest := v }
    else .error (.valueError "sim_hold_highest must be greater than zero")
  | .auto =>
    if in_slews = [] then
      .error (.valueError "Cannot use auto for sim_hold_highest unless in_slews is set first!")
    else .ok { st with sim_hold_lowest := pymax in_slews * 10 }
  | .other => .error (.typeError "Invalid type for sim_hold_highest")

/-- Switching direction of a harness's target port ('rise' / 'fall'). -/
inductive Direction
  | rise
  | fall
deriving DecidableEq

/-- The logic-threshold voltages exposed by the library settings
(`LibrarySettings`, outside src/): the low-to-high and high-to-low switching
thresholds and the plain low/high thresholds used for transition-time
measurement.  Opaque configuration values as far as TestManager.py is
concerned. -/
structure Thresholds where
  low_to_high : ℚ
  high_to_low : ℚ
  low : ℚ
  high : ℚ
deriving DecidableEq

/-- Measurement thresholds chosen by
`CombinationalTestManager._run_delay_trial` (lines 501-513), returned as
`(v_prop_start, v_prop_end, v_trans_start, v_trans_end)`.  `v_prop_start`
follows the input direction (lines 502-505); the output branch at lines
506-513 sets `v_prop_end` to `logic_low_to_high_threshold_voltage()` in
both the 'rise' branch (line 507) and the 'fall' branch (line 511). -/
def comb_delay_thresholds (s : Thresholds) (in_dir out_dir : Direction) :
    ℚ × ℚ × ℚ × ℚ :=
  let v_prop_start := match in_dir with
    | .rise => s.low_to_high
    | .fall => s.high_to_low
  match out_dir with
  | .rise => (v_prop_start, s.low_to_high, s.low, s.high)
  | .fall => (v_prop_start, s.low_to_high, s.high, s.low)

/-- `v_prop_end` chosen by `SequentialTestManager._run_delay_trial`
(lines 1117-1122): the sequential trial selects the high-to-low threshold
for a falling target output. -/
def seq_v_prop_end (s : Thresholds) (out_dir : Direction) : ℚ :=
  match out_dir with
  | .rise => s.low_to_high
  | .fall => s.high_to_low

/-- C9: `add_in_slew`/`add_out_load` store every value they are given;
a non-positive value is appended, not rejected.  At the concrete inputs
`-1` and `0`, the value ends up in the stored list. -/
theorem add_sweep_nonpositive_stored_counterexample :
    add_in_slew [] (-1) = [-1] ∧ ((-1 : ℚ) ∈ add_in_slew [] (-1)) ∧
    add_out_load [2] 0 = [2, 0] ∧ ((0 : ℚ) ∈ add_out_load [2] 0) := by
  refine ⟨rfl, ?_, rfl, ?_⟩ <;> simp [add_in_slew, add_out_load]

/-- C9 (amended): the sweep-list adders perform no validation; every value,
non-positive ones included, is stored in the list. -/
theorem add_sweep_stores_nonpositive (l : List ℚ) (v : ℚ) (hv : v ≤ 0) :
    v ∈ add_in_slew l v ∧ v ∈ add_out_load l v := by
  unfold add_in_slew add_out_load
  constructor <;> exact List.mem_append_right l (List.mem_singleton.mpr rfl)

/-- C9 witness: `-1` is non-positive and is stored by both adders. -/
theorem add_sweep_stores_nonpositive_witness :
    (-1 : ℚ) ∈ add_in_slew [] (-1) ∧ (-1 : ℚ) ∈ add_out_load [] (-1) :=
  add_sweep_stores_nonpositive [] (-1) (by norm_num)

/-- C10: the explicit numeric setters for `sim_setup_lowest` and
`sim_hold_lowest` raise a `ValueError` for every value `≤ 0`, any value they
do store is strictly positive (so never negative), and a negative lower
bound arises only from `'auto'`, which stores `-10` times the max (setup)
or min (hold) configured slew rate. -/
theorem sim_lowest_setters_spec (in_slews : List ℚ) (v w : ℚ) (hv : v ≤ 0) :
    set_sim_setup_lowest in_slews (.num v) =
      .error (.valueError "sim_setup_lowest must be greater than zero") ∧
    set_sim_hold_lowest in_slews (.num v) =
      .error (.valueError "sim_hold_lowest must be greater than zero") ∧
    (∀ u : ℚ, set_sim_setup_lowest in_slews (.num u) = .ok w → 0 < w) ∧
    (∀ u : ℚ, set_sim_hold_lowest in_slews (.num u) = .ok w → 0 < w) ∧
    (in_slews ≠ [] →
      set_sim_setup_lowest in_slews .auto = .ok (pymax in_slews * (-10)) ∧
      set_sim_hold_lowest in_slews .auto = .ok (pymin in_slews * (-10))) := by
  refine ⟨?_, ?_, ?_, ?_, ?_⟩
  · simp [set_sim_setup_lowest, not_lt.mpr hv]
  · simp [set_sim_hold_lowest, not_lt.mpr hv]
  · intro u hu
    by_cases h : u > 0
    · simp [set_sim_setup_lowest, h] at hu
      simpa [hu.symm] using h
    · simp [set_sim_setup_lowest, h] at hu
  · intro u hu
    by_cases h : u > 0
    · simp [set_sim_hold_lowest, h] at hu
      simpa [hu.symm] using h
    · simp [set_sim_hold_lowest, h] at hu
  · intro hne
    constructor <;> simp [set_sim_setup_lowest, set_sim_hold_lowest, hne]

/-- C10 witness: at `in_slews = [2]`, `v = -1`, `w = 1` the hypotheses hold
and the numeric setter rejects the non-positive value. -/
theorem sim_lowest_setters_spec_witness :
    set_sim_setup_lowest [2] (.num (-1)) =
      .error (.valueError "sim_setup_lowest must be greater than zero") :=
  (sim_lowest_setters_spec [2] (-1) 1 (by norm_num)).1

/-- C6: assigning `'auto'` to `sim_hold_highest` with `in_slews = [3]` and
prior bounds `(lowest, highest) = (1, 5)` leaves `sim_hold_highest` at `5`
and overwrites `sim_hold_lowest` with `30 = 10 * max slew` — the assignment
on source line 812 targets the wrong attribute.  The claim (and the
setter's own comment) say `sim_hold_highest` should become `30` with
`sim_hold_lowest` unchanged. -/
theorem sim_hold_highest_auto_sets_wrong_field :
    set_sim_hold_highest ⟨1, 5⟩ [3] .auto = .ok ⟨30, 5⟩ ∧
    (∀ st : HoldBounds, set_sim_hold_highest ⟨1, 5⟩ [3] .auto = .ok st →
      st.sim_hold_highest = 5 ∧ st.sim_hold_lowest = 30) := by
  have h : set_sim_hold_highest ⟨1, 5⟩ [3] .auto = .ok ⟨30, 5⟩ := by
    show Except.ok ({ sim_hold_lowest := pymax [3] * 10, sim_hold_highest := 5 } : HoldBounds) = _
    norm_num [pymax]
  refine ⟨h, ?_⟩
  intro st hst
  rw [h] at hst
  cases hst
  exact ⟨rfl, rfl⟩

/-- C7: in the combinational delay trial, the output-side propagation
threshold `v_prop_end` equals the low-to-high threshold for BOTH output
directions; with distinct thresholds `(low_to_high, high_to_low) = (6, 4)`
a falling output is measured at `6`, not at the high-to-low threshold `4`
the claim (and the sequential trial, which picks `4`) prescribe.  The
input-side trigger threshold does follow the input direction. -/
theorem comb_fall_prop_end_uses_rise_threshold :
    (comb_delay_thresholds ⟨6, 4, 1, 9⟩ .rise .fall).2.1 = 6 ∧
    (comb_delay_thresholds ⟨6, 4, 1, 9⟩ .rise .rise).2.1 = 6 ∧
    seq_v_prop_end ⟨6, 4, 1, 9⟩ .fall = 4 ∧
    (comb_delay_thresholds ⟨6, 4, 1, 9⟩ .rise .fall).1 = 6 ∧
    (comb_delay_thresholds ⟨6, 4, 1, 9⟩ .fall .fall).1 = 4 ∧
    (6 : ℚ) ≠ 4 := by
  refine ⟨rfl, rfl, rfl, rfl, rfl, by norm_num⟩

/-- One request made of the external circuit simulator: an input-capacitance
AC sweep (`TestManager._run_input_capacitance`) or a transient delay trial
(`_run_delay`). -/
inductive SimCall
  | capacitance (pin : String)
  | delayTrial (slew load : ℚ)
deriving DecidableEq

/-- The sequence of simulator calls issued by
`CombinationalTestManager.characterize` (lines 352-387): first an
input-capacitance measurement for every input pin (lines 355-357), then one
delay trial per (test vector, slew, load) (lines 361-385; the threaded and
sequential dispatch paths issue the same call set).  The source contains no
emptiness check on the slew or load lists and no raise site before these
calls. -/
def comb_characterize_sim_calls (in_ports : List String)
    (test_vectors : List (List String)) (in_slews out_loads : List ℚ) :
    List SimCall :=
  in_ports.map SimCall.capacitance ++
    test_vectors.flatMap fun _ =>
      in_slews.flatMap fun s => out_loads.map fun l => SimCall.delayTrial s l

/-- The sequence of simulator calls issued by
`SequentialTestManager.characterize` (lines 864-887): capacitance for the
data inputs, the clock, and any set/reset pin (lines 867-874), then per
(test vector, slew, load) one `_run_delay` dispatch (lines 878-886; each
dispatch runs the setup/hold binary-search trials, recorded here as one
delay-trial marker).  Again no emptiness check precedes the calls. -/
def seq_characterize_sim_calls (in_ports : List String) (clock : String)
    (set_pin reset_pin : Option String) (test_vectors : List (List String))
    (in_slews out_loads : List ℚ) : List SimCall :=
  (in_ports ++ [clock] ++ set_pin.toList ++ reset_pin.toList).map
      SimCall.capacitance ++
    test_vectors.flatMap fun _ =>
      in_slews.flatMap fun s => out_loads.map fun l => SimCall.delayTrial s l

/-- C4: with an empty slew list (or load list), `characterize` does NOT fail
with a `ConfigurationError` before any simulator call: at the concrete input
(one pin `A`, one test vector, `in_slews = []`, `out_loads = [1]`) it issues
the input-capacitance simulator call for `A` and raises nothing. -/
theorem characterize_empty_sweep_counterexample :
    comb_characterize_sim_calls ["A"] [["01"]] [] [1] =
      [SimCall.capacitance "A"] ∧
    comb_characterize_sim_calls ["A"] [["01"]] [] [1] ≠ [] ∧
    comb_characterize_sim_calls ["A"] [["01"]] [1] [] =
      [SimCall.capacitance "A"] ∧
    seq_characterize_sim_calls ["D"] "CLK" none none [["01"]] [] [1] =
      [SimCall.capacitance "D", SimCall.capacitance "CLK"] := by
  have h1 : comb_characterize_sim_calls ["A"] [["01"]] [] [1] =
      [SimCall.capacitance "A"] := rfl
  exact ⟨h1, by rw [h1]; simp, rfl, rfl⟩

/-- C4 (amended): with an empty slew or load list, `characterize` raises no
error at all at characterize-time: it still performs the input-capacitance
simulator calls for every input pin (plus clock/set/reset for sequential
cells) and simply runs zero delay trials. -/
theorem characterize_empty_sweep_no_delay_trials (in_ports : List String)
    (vecs : List (List String)) (slews loads : List ℚ) (clock : String)
    (sp rp : Option String) :
    comb_characterize_sim_calls in_ports vecs [] loads =
      in_ports.map SimCall.capacitance ∧
    comb_characterize_sim_calls in_ports vecs slews [] =
      in_ports.map SimCall.capacitance ∧
    seq_characterize_sim_calls in_ports clock sp rp vecs [] loads =
      (in_ports ++ [clock] ++ sp.toList ++ rp.toList).map
        SimCall.capacitance ∧
    seq_characterize_sim_calls in_ports clock sp rp vecs slews [] =
      (in_ports ++ [clock] ++ sp.toList ++ rp.toList).map
        SimCall.capacitance := by
  refine ⟨?_, ?_, ?_, ?_⟩ <;>
    simp [comb_characterize_sim_calls, seq_characterize_sim_calls]

/-- Row-major table values built by the nested loops of the table-assembly
phase (comb.: lines 415-423; seq.: lines 909-915): for every slew (outer)
and every load (inner), append the measured value.  `f slew load` stands
for the stored, unit-converted measurement
`harness.results[str(slew)][str(load)][key]` (the source keys the results
map by the stringified sweep values, in the same order as the lists). -/
def build_values (f : ℚ → ℚ → ℚ) : List ℚ → List ℚ → List ℚ
  | [], _ => []
  | s :: rest, loads => loads.map (f s) ++ build_values f rest loads

/-- A timing table as handed to `Pin.add_table` (lines 425-426 / 917-918):
a kind tag, a template name derived from the grid dimensions, the flattened
value list, and the two index lists. -/
structure TimingTable where
  kind : String
  template : String
  values : List ℚ
  index_1 : List ℚ
  index_2 : List ℚ

/-- The two `add_table` calls made per (input pin, output pin, direction)
(comb.: lines 424-426; seq.: lines 916-918): a `cell_<direction>` table of
propagation delays and a `<direction>_transition` table of transition
times, both indexed by the manager's slew and load lists. -/
def arc_tables (direction : String) (fp ft : ℚ → ℚ → ℚ)
    (slews loads : List ℚ) : List TimingTable :=
  [⟨"cell_" ++ direction,
    "delay_template_" ++ toString slews.length ++ "x" ++ toString loads.length,
    build_values fp slews loads, slews, loads⟩,
   ⟨direction ++ "_transition",
    "delay_template_" ++ toString slews.length ++ "x" ++ toString loads.length,
    build_values ft slews loads, slews, loads⟩]

/-- The full table-attachment loop of `characterize` (comb.: lines 405-426;
seq.: lines 898-918): for every output pin, input pin and direction, the
two tables of that arc.  `fp`/`ft` give the stored propagation/transition
measurement of the worst-case harness of each arc. -/
def characterize_tables (out_ports in_ports : List String)
    (fp ft : String → String → String → ℚ → ℚ → ℚ)
    (slews loads : List ℚ) :
    List ((String × String × String) × List TimingTable) :=
  out_ports.flatMap fun o => in_ports.flatMap fun i =>
    ["rise", "fall"].map fun d =>
      ((o, i, d), arc_tables d (fp o i d) (ft o i d) slews loads)

lemma build_values_length (f : ℚ → ℚ → ℚ) (S L : List ℚ) :
    (build_values f S L).length = S.length * L.length := by
  induction S with
  | nil => simp [build_values]
  | cons s rest ih =>
    simp [build_values, ih, Nat.succ_mul, Nat.add_comm]

lemma build_values_getElem? (f : ℚ → ℚ → ℚ) (S L : List ℚ) (i j : ℕ)
    (hi : i < S.length) (hj : j < L.length) :
    (build_values f S L)[i * L.length + j]? =
      some (f (S.get ⟨i, hi⟩) (L.get ⟨j, hj⟩)) := by
  induction S generalizing i with
  | nil => exact absurd hi (Nat.not_lt_zero i)
  | cons s rest ih =>
    cases i with
    | zero =>
      simp only [build_values, Nat.zero_mul, Nat.zero_add]
      rw [List.getElem?_append_left (by simpa using hj)]
      simp [List.getElem?_eq_getElem, hj]
    | succ i' =>
      have hi' : i' < rest.length := Nat.lt_of_succ_lt_succ hi
      have harith : (i' + 1) * L.length + j = L.length + (i' * L.length + j) := by
        ring
      simp only [build_values, harith]
      rw [List.getElem?_append_right (by simp)]
      have := ih i' hi'
      simpa using this

lemma build_values_get (f : ℚ → ℚ → ℚ) (S L : List ℚ) (i j : ℕ)
    (hi : i < S.length) (hj : j < L.length)
    (hidx : i * L.length + j < (build_values f S L).length) :
    (build_values f S L).get ⟨i * L.length + j, hidx⟩ =
      f (S.get ⟨i, hi⟩) (L.get ⟨j, hj⟩) := by
  have h1 := build_values_getElem? f S L i j hi hj
  rw [List.getElem?_eq_getElem hidx] at h1
  rw [List.get_eq_getElem]
  exact Option.some.inj h1

/-- C8: every produced timing table holds exactly `m * n` values for `m`
slews and `n` loads, in row-major order (slew outer, load inner: the value
at flat index `i * n + j` is the measurement at the `i`-th slew and `j`-th
load), its index lists are the manager's slew and load lists in declared
order, and exactly two tables (cell delay and transition) are produced per
(output pin, input pin, direction) triple. -/
theorem timing_table_shape (out_ports in_ports : List String)
    (fp ft : String → String → String → ℚ → ℚ → ℚ) (f : ℚ → ℚ → ℚ)
    (slews loads : List ℚ) (i j : ℕ)
    (hi : i < slews.length) (hj : j < loads.length)
    (hidx : i * loads.length + j < (build_values f slews loads).length) :
    (∀ e ∈ characterize_tables out_ports in_ports fp ft slews loads,
      e.2.length = 2 ∧
      ∀ t ∈ e.2, t.index_1 = slews ∧ t.index_2 = loads ∧
        t.values.length = slews.length * loads.length) ∧
    (build_values f slews loads).get ⟨i * loads.length + j, hidx⟩ =
      f (slews.get ⟨i, hi⟩) (loads.get ⟨j, hj⟩) := by
  constructor
  · intro e he
    simp only [characterize_tables, List.mem_flatMap, List.mem_map] at he
    obtain ⟨o, -, i', -, d, -, rfl⟩ := he
    refine ⟨rfl, ?_⟩
    intro t ht
    simp only [arc_tables, List.mem_cons, List.not_mem_nil, or_false] at ht
    rcases ht with rfl | rfl <;>
      exact ⟨rfl, rfl, build_values_length _ _ _⟩
  · exact build_values_get f slews loads i j hi hj hidx

/-- C8 witness: a concrete 2-slew, 2-load sweep; the flat index `1 * 2 + 1`
holds the measurement of the second slew and second load. -/
theorem timing_table_shape_witness :
    (∀ e ∈ characterize_tables ["Y"] ["A"]
        (fun _ _ _ s l => s + l) (fun _ _ _ s l => s * l) [1, 2] [3, 4],
      e.2.length = 2 ∧
      ∀ t ∈ e.2, t.index_1 = [1, 2] ∧ t.index_2 = [3, 4] ∧
        t.values.length = 2 * 2) ∧
    (build_values (fun s l => s + l) [1, 2] [3, 4]).get ⟨1 * 2 + 1, by decide⟩ =
      (2 + 4 : ℚ) :=
  timing_table_shape ["Y"] ["A"] (fun _ _ _ s l => s + l)
    (fun _ _ _ s l => s * l) (fun s l => s + l) [1, 2] [3, 4] 1 1
    (by decide) (by decide) (by decide)

/-- A combinational harness as consumed by the worst-case selection loop:
its target input/output pins, the target output's switching direction, and
the flattened grid of stored propagation-delay results. -/
structure CombHarness where
  in_port : String
  out_port : String
  out_direction : Direction
  results : List ℚ
deriving DecidableEq

/-- Modelled from the spec: `Harness.average_propagation_delay` lives in
`characterizer/Harness.py`, which is not under src/.  Per the spec it is the
harness's average propagation delay across the full sweep grid. -/
def average_propagation_delay (h : CombHarness) : ℚ :=
  h.results.sum / h.results.length

/-- Modelled from the spec: `filter_harnesses_by_ports`
(`characterizer/Harness.py`, not under src/) keeps the harnesses whose
target ports match the given input and output pins. -/
def filter_harnesses_by_ports (hs : List CombHarness)
    (in_port out_port : String) : List CombHarness :=
  hs.filter fun h => h.in_port == in_port && h.out_port == out_port

/-- `matching_harnesses` of `CombinationalTestManager.characterize`
(line 396): the port-filtered harnesses whose output direction matches. -/
def matching_harnesses (hs : List CombHarness) (in_port out_port : String)
    (d : Direction) : List CombHarness :=
  (filter_harnesses_by_ports hs in_port out_port).filter
    fun h => decide (h.out_direction = d)

/-- One step of the worst-case loop (lines 398-401): replace the current
candidate whenever a strictly larger average propagation delay appears. -/
def select_step (w h : CombHarness) : CombHarness :=
  if average_propagation_delay w < average_propagation_delay h then h else w

/-- Worst-case selection (lines 397-402): start from
`matching_harnesses[0]` (an `IndexError`, modelled as `none`, if the list
is empty) and scan the whole list with `select_step`. -/
def worst_case_select : List CombHarness → Option CombHarness
  | [] => none
  | h0 :: rest => some ((h0 :: rest).foldl select_step h0)

lemma foldl_select_first_max (l : List CombHarness) (w : CombHarness) :
    ∃ l₁ l₂, w :: l = l₁ ++ l.foldl select_step w :: l₂ ∧
      (∀ x ∈ l₁, average_propagation_delay x <
        average_propagation_delay (l.foldl select_step w)) ∧
      (∀ x ∈ w :: l, average_propagation_delay x ≤
        average_propagation_delay (l.foldl select_step w)) := by
  induction l generalizing w with
  | nil =>
    exact ⟨[], [], rfl, by simp, by simp⟩
  | cons h t ih =>
    by_cases hwh : average_propagation_delay w < average_propagation_delay h
    · have hfold : (h :: t).foldl select_step w = t.foldl select_step h := by
        simp [List.foldl_cons, select_step, hwh]
      obtain ⟨l₁, l₂, he, hsm, hmx⟩ := ih h
      refine ⟨w :: l₁, l₂, ?_, ?_, ?_⟩
      · rw [hfold, List.cons_append, ← he]
      · intro x hx
        rw [hfold]
        rcases List.mem_cons.mp hx with rfl | hx'
        · exact lt_of_lt_of_le hwh (hmx h (List.mem_cons_self h t))
        · exact hsm x hx'
      · intro x hx
        rw [hfold]
        rcases List.mem_cons.mp hx with rfl | hx'
        · exact le_of_lt (lt_of_lt_of_le hwh (hmx h (List.mem_cons_self h t)))
        · exact hmx x hx'
    · have hfold : (h :: t).foldl select_step w = t.foldl select_step w := by
        simp [List.foldl_cons, select_step, hwh]
      obtain ⟨l₁, l₂, he, hsm, hmx⟩ := ih w
      cases l₁ with
      | nil =>
        have hw : t.foldl select_step w = w := by
          have := he
          simp only [List.nil_append] at this
          exact (List.cons.injEq _ _ _ _).mp this |>.1 |>.symm
        have ht : l₂ = t := by
          have := he
          simp only [List.nil_append] at this
          exact ((List.cons.injEq _ _ _ _).mp this).2.symm
        refine ⟨[], h :: t, ?_, by simp, ?_⟩
        · rw [hfold, hw]
          rfl
        · intro x hx
          rw [hfold, hw]
          rcases List.mem_cons.mp hx with rfl | hx'
          · exact le_refl _
          · rcases List.mem_cons.mp hx' with rfl | hx''
            · exact not_lt.mp hwh
            · have := hmx x (List.mem_cons.mpr (Or.inr hx''))
              rw [hw] at this
              exact this
      | cons w' l₁' =>
        have hw' : w = w' ∧ t = l₁' ++ t.foldl select_step w :: l₂ := by
          have := he
          simp only [List.cons_append] at this
          exact (List.cons.injEq _ _ _ _).mp this
        refine ⟨w :: h :: l₁', l₂, ?_, ?_, ?_⟩
        · rw [hfold]
          simp only [List.cons_append]
          rw [← hw'.2]
        · intro x hx
          rw [hfold]
          have hwlt : average_propagation_delay w <
              average_propagation_delay (t.foldl select_step w) := by
            have := hsm w' (List.mem_cons_self w' l₁')
            rw [← hw'.1] at this
            exact this
          rcases List.mem_cons.mp hx with rfl | hx'
          · exact hwlt
          · rcases List.mem_cons.mp hx' with rfl | hx''
            · exact lt_of_le_of_lt (not_lt.mp hwh) hwlt
            · have := hsm x (List.mem_cons.mpr (Or.inr hx''))
              exact this
        · intro x hx
          rw [hfold]
          rcases List.mem_cons.mp hx with rfl | hx'
          · exact hmx x (List.mem_cons_self x t)
          · rcases List.mem_cons.mp hx' with rfl | hx''
            · exact le_trans (not_lt.mp hwh) (hmx w (List.mem_cons_self w t))
            · exact hmx x (List.mem_cons.mpr (Or.inr hx''))

/-- C2: for any (output pin, input pin, direction), worst-case selection
over the matching harnesses returns the FIRST harness attaining the
maximal average propagation delay: every earlier matching harness has a
strictly smaller average, every matching harness's average is `≤` the
winner's, and re-running the selection over the same harness list yields
the same harness (the selection is a pure function of the list). -/
theorem worst_case_selection (hs : List CombHarness) (i o : String)
    (d : Direction) (hne : matching_harnesses hs i o d ≠ []) :
    ∃ w, worst_case_select (matching_harnesses hs i o d) = some w ∧
      (∃ l₁ l₂, matching_harnesses hs i o d = l₁ ++ w :: l₂ ∧
        ∀ x ∈ l₁, average_propagation_delay x < average_propagation_delay w) ∧
      (∀ x ∈ matching_harnesses hs i o d,
        average_propagation_delay x ≤ average_propagation_delay w) ∧
      worst_case_select (matching_harnesses hs i o d) =
        worst_case_select (matching_harnesses hs i o d) := by
  obtain ⟨h0, rest, hm⟩ : ∃ h0 rest, matching_harnesses hs i o d = h0 :: rest :=
    List.exists_cons_of_ne_nil hne
  rw [hm]
  have hfold : (h0 :: rest).foldl select_step h0 = rest.foldl select_step h0 := by
    simp [List.foldl_cons, select_step]
  obtain ⟨l₁, l₂, he, hsm, hmx⟩ := foldl_select_first_max rest h0
  refine ⟨(h0 :: rest).foldl select_step h0, rfl, ⟨l₁, l₂, ?_, ?_⟩, ?_, rfl⟩
  · rw [hfold, ← he]
  · intro x hx
    rw [hfold]
    exact hsm x hx
  · intro x hx
    rw [hfold]
    exact hmx x hx

/-- C2 witness: two matching harnesses with averages 1 and 2; the second
(larger-average) harness is selected and every decomposition property holds. -/
theorem worst_case_selection_witness :
    ∃ w, worst_case_select (matching_harnesses
        [⟨"A", "Y", Direction.rise, [1]⟩, ⟨"A", "Y", Direction.rise, [2]⟩]
        "A" "Y" Direction.rise) = some w ∧
      (∃ l₁ l₂, matching_harnesses
          [⟨"A", "Y", Direction.rise, [1]⟩, ⟨"A", "Y", Direction.rise, [2]⟩]
          "A" "Y" Direction.rise = l₁ ++ w :: l₂ ∧
        ∀ x ∈ l₁, average_propagation_delay x < average_propagation_delay w) ∧
      (∀ x ∈ matching_harnesses
          [⟨"A", "Y", Direction.rise, [1]⟩, ⟨"A", "Y", Direction.rise, [2]⟩]
          "A" "Y" Direction.rise,
        average_propagation_delay x ≤ average_propagation_delay w) ∧
      worst_case_select (matching_harnesses
          [⟨"A", "Y", Direction.rise, [1]⟩, ⟨"A", "Y", Direction.rise, [2]⟩]
          "A" "Y" Direction.rise) =
        worst_case_select (matching_harnesses
          [⟨"A", "Y", Direction.rise, [1]⟩, ⟨"A", "Y", Direction.rise, [2]⟩]
          "A" "Y" Direction.rise) :=
  worst_case_selection
    [⟨"A", "Y", Direction.rise, [1]⟩, ⟨"A", "Y", Direction.rise, [2]⟩]
    "A" "Y" Direction.rise (by decide)

/-- A non-target port of a harness: its pin name and its logic state. -/
structure PortState where
  name : String
  state : String
deriving DecidableEq

/-- The stable-input branch of the wiring loops (comb.: lines 478-486;
seq.: lines 1018-1026): scan the harness's stable input ports, appending
`vhigh`/`vlow` for each one whose name matches; a state other than
'0'/'1' raises `ValueError` ("Invalid state ..."). -/
def stable_conns : List PortState → String → Except CharError (List String)
  | [], _ => .ok []
  | sp :: rest, port =>
    if port = sp.name then
      if sp.state = "1" then
        match stable_conns rest port with
        | .ok cs => .ok ("vhigh" :: cs)
        | .error e => .error e
      else if sp.state = "0" then
        match stable_conns rest port with
        | .ok cs => .ok ("vlow" :: cs)
        | .error e => .error e
      else .error (.invalidState port)
    else stable_conns rest port

/-- The non-target-output branch (comb.: lines 487-490; seq.: lines
1027-1030): append a floating node named after each matching port's state. -/
def nontarget_conns (nt : List PortState) (port : String) : List String :=
  nt.filterMap fun np =>
    if port = np.name then some ("wfloat" ++ np.state) else none

/-- The port roles of a combinational harness plus the supply names from
the library settings, as consulted by the wiring loop of
`CombinationalTestManager._run_delay_trial` (lines 466-493). -/
structure CombWiring where
  target_in : String
  target_out : String
  vdd : String
  vss : String
  stable_in : List PortState
  nontarget_out : List PortState
deriving DecidableEq

/-- The connections one definition port contributes in the combinational
wiring loop (lines 469-490), in branch order: target input, target output,
vdd, vss, stable inputs, non-target outputs; a port matching no branch
contributes nothing. -/
def comb_port_conns (h : CombWiring) (port : String) :
    Except CharError (List String) :=
  if port = h.target_in then .ok ["vin"]
  else if port = h.target_out then .ok ["vout"]
  else if port = h.vdd then .ok ["vdd_dyn"]
  else if port = h.vss then .ok ["vss_dyn"]
  else if port ∈ h.stable_in.map PortState.name then
    stable_conns h.stable_in port
  else if port ∈ h.nontarget_out.map PortState.name then
    .ok (nontarget_conns h.nontarget_out port)
  else .ok []

/-- Concatenate each port's contributed connections in order, propagating
the first raised error. -/
def conns_list (f : String → Except CharError (List String)) :
    List String → Except CharError (List String)
  | [] => .ok []
  | p :: rest =>
    match f p with
    | .error e => .error e
    | .ok c =>
      match conns_list f rest with
      | .error e => .error e
      | .ok cs => .ok (c ++ cs)

/-- The combinational wiring phase (lines 468-492): build the connection
list and raise `ValueError("Failed to match all ports ...")`, here
`CharError.wiringError`, when the connection count differs from the port
count (line 491; the source compares the two `len` values with `is not`,
which for CPython's cached small ints is integer disequality). -/
def comb_wire (h : CombWiring) (ports : List String) :
    Except CharError (List String) :=
  match conns_list (comb_port_conns h) ports with
  | .error e => .error e
  | .ok conns =>
    if conns.length ≠ ports.length then .error .wiringError else .ok conns

/-- `CombinationalTestManager._run_delay_trial` reduced to its wiring and
simulation phases: wire the subcircuit (lines 466-493), then hand the
connection list to the simulator (lines 495-522, modelled by the oracle
`sim`).  A wiring failure propagates; nothing catches or retries it. -/
def comb_run_delay_trial (h : CombWiring) (ports : List String)
    (sim : List String → Except CharError ℚ) : Except CharError ℚ :=
  match comb_wire h ports with
  | .error e => .error e
  | .ok conns => sim conns

/-- The port roles of a sequential harness, as consulted by
`SequentialTestManager._wire_subcircuit` (lines 1000-1033): the
combinational roles plus clock and optional reset/set pins. -/
structure SeqWiring where
  target_in : String
  target_out : String
  vdd : String
  vss : String
  clock : String
  reset : Option String
  set_pin : Option String
  stable_in : List PortState
  nontarget_out : List PortState
deriving DecidableEq

/-- The connections one port contributes in `_wire_subcircuit`
(lines 1003-1030), in branch order: target input, target output, vdd, vss,
clock, reset (when the cell has one), set (when the cell has one), stable
inputs, non-target outputs. -/
def seq_port_conns (h : SeqWiring) (port : String) :
    Except CharError (List String) :=
  if port = h.target_in then .ok ["vin"]
  else if port = h.target_out then .ok ["vout"]
  else if port = h.vdd then .ok ["vdd_dyn"]
  else if port = h.vss then .ok ["vss_dyn"]
  else if port = h.clock then .ok ["vcin"]
  else if h.reset = some port then .ok ["vrin"]
  else if h.set_pin = some port then .ok ["vsin"]
  else if port ∈ h.stable_in.map PortState.name then
    stable_conns h.stable_in port
  else if port ∈ h.nontarget_out.map PortState.name then
    .ok (nontarget_conns h.nontarget_out port)
  else .ok []

/-- `SequentialTestManager._wire_subcircuit` (lines 1000-1033): the
connection list is seeded with the subcircuit name
(`connections = [ports.pop(0)]`, line 1002) and the check at line 1031
raises when `len(connections) != len(ports) + 1`. -/
def seq_wire (h : SeqWiring) (subckt : String) (ports : List String) :
    Except CharError (List String) :=
  match conns_list (seq_port_conns h) ports with
  | .error e => .error e
  | .ok conns =>
    if (subckt :: conns).length ≠ ports.length + 1 then .error .wiringError
    else .ok (subckt :: conns)

/-- `SequentialTestManager._run_delay_trial` reduced to its wiring and
simulation phases (lines 1098-1152): `_wire_subcircuit`, then the
simulator oracle.  A wiring failure propagates; nothing catches or
retries it. -/
def seq_run_delay_trial (h : SeqWiring) (subckt : String)
    (ports : List String) (sim : List String → Except CharError ℚ) :
    Except CharError ℚ :=
  match seq_wire h subckt ports with
  | .error e => .error e
  | .ok conns => sim conns

/-- A definition port that matches none of the combinational harness's port
roles. -/
def comb_unmatched (h : CombWiring) (p : String) : Prop :=
  p ≠ h.target_in ∧ p ≠ h.target_out ∧ p ≠ h.vdd ∧ p ≠ h.vss ∧
    p ∉ h.stable_in.map PortState.name ∧
    p ∉ h.nontarget_out.map PortState.name

/-- A definition port that matches none of the sequential harness's port
roles. -/
def seq_unmatched (h : SeqWiring) (p : String) : Prop :=
  p ≠ h.target_in ∧ p ≠ h.target_out ∧ p ≠ h.vdd ∧ p ≠ h.vss ∧
    p ≠ h.clock ∧ h.reset ≠ some p ∧ h.set_pin ≠ some p ∧
    p ∉ h.stable_in.map PortState.name ∧
    p ∉ h.nontarget_out.map PortState.name

lemma stable_conns_ok (stable : List PortState) (port : String)
    (hval : ∀ sp ∈ stable, sp.state = "0" ∨ sp.state = "1") :
    ∃ cs, stable_conns stable port = .ok cs ∧
      cs.length = (stable.map PortState.name).count port := by
  induction stable with
  | nil => exact ⟨[], rfl, by simp⟩
  | cons sp rest ih =>
    obtain ⟨cs, hcs, hlen⟩ := ih fun x hx => hval x (List.mem_cons.mpr (Or.inr hx))
    by_cases hp : port = sp.name
    · subst hp
      rcases hval sp (List.mem_cons_self sp rest) with h0 | h1
      · refine ⟨"vlow" :: cs, ?_, ?_⟩
        · simp [stable_conns, h0, hcs]
        · simp [hlen, List.count_cons]
      · refine ⟨"vhigh" :: cs, ?_, ?_⟩
        · simp [stable_conns, h1, hcs]
        · simp [hlen, List.count_cons]
    · have hp' : sp.name ≠ port := fun h => hp h.symm
      refine ⟨cs, ?_, ?_⟩
      · simp only [stable_conns, if_neg hp, hcs]
      · simp [hlen, List.count_cons, hp']

lemma nontarget_conns_length (nt : List PortState) (port : String) :
    (nontarget_conns nt port).length = (nt.map PortState.name).count port := by
  induction nt with
  | nil => simp [nontarget_conns]
  | cons np rest ih =>
    by_cases hp : port = np.name
    · subst hp
      simp [nontarget_conns, List.count_cons] at ih ⊢
      exact ih
    · have hp' : np.name ≠ port := fun h => hp h.symm
      simp [nontarget_conns, List.count_cons, hp, hp'] at ih ⊢
      exact ih

lemma comb_port_conns_ok (h : CombWiring) (p : String)
    (hval : ∀ sp ∈ h.stable_in, sp.state = "0" ∨ sp.state = "1")
    (hnd1 : (h.stable_in.map PortState.name).Nodup)
    (hnd2 : (h.nontarget_out.map PortState.name).Nodup) :
    ∃ cs, comb_port_conns h p = .ok cs ∧ cs.length ≤ 1 := by
  unfold comb_port_conns
  split_ifs with h1 h2 h3 h4 h5 h6
  · exact ⟨["vin"], rfl, by norm_num⟩
  · exact ⟨["vout"], rfl, by norm_num⟩
  · exact ⟨["vdd_dyn"], rfl, by norm_num⟩
  · exact ⟨["vss_dyn"], rfl, by norm_num⟩
  · obtain ⟨cs, hcs, hlen⟩ := stable_conns_ok h.stable_in p hval
    refine ⟨cs, hcs, ?_⟩
    rw [hlen]
    exact (List.nodup_iff_count_le_one.mp hnd1) p
  · refine ⟨nontarget_conns h.nontarget_out p, rfl, ?_⟩
    rw [nontarget_conns_length]
    exact (List.nodup_iff_count_le_one.mp hnd2) p
  · exact ⟨[], rfl, by norm_num⟩

lemma comb_port_conns_unmatched (h : CombWiring) (p : String)
    (hu : comb_unmatched h p) : comb_port_conns h p = .ok [] := by
  obtain ⟨h1, h2, h3, h4, h5, h6⟩ := hu
  simp [comb_port_conns, h1, h2, h3, h4, h5, h6]

lemma seq_port_conns_ok (h : SeqWiring) (p : String)
    (hval : ∀ sp ∈ h.stable_in, sp.state = "0" ∨ sp.state = "1")
    (hnd1 : (h.stable_in.map PortState.name).Nodup)
    (hnd2 : (h.nontarget_out.map PortState.name).Nodup) :
    ∃ cs, seq_port_conns h p = .ok cs ∧ cs.length ≤ 1 := by
  unfold seq_port_conns
  split_ifs with h1 h2 h3 h4 h5 h6 h7 h8 h9
  · exact ⟨["vin"], rfl, by norm_num⟩
  · exact ⟨["vout"], rfl, by norm_num⟩
  · exact ⟨["vdd_dyn"], rfl, by norm_num⟩
  · exact ⟨["vss_dyn"], rfl, by norm_num⟩
  · exact ⟨["vcin"], rfl, by norm_num⟩
  · exact ⟨["vrin"], rfl, by norm_num⟩
  · exact ⟨["vsin"], rfl, by norm_num⟩
  · obtain ⟨cs, hcs, hlen⟩ := stable_conns_ok h.stable_in p hval
    refine ⟨cs, hcs, ?_⟩
    rw [hlen]
    exact (List.nodup_iff_count_le_one.mp hnd1) p
  · refine ⟨nontarget_conns h.nontarget_out p, rfl, ?_⟩
    rw [nontarget_conns_length]
    exact (List.nodup_iff_count_le_one.mp hnd2) p
  · exact ⟨[], rfl, by norm_num⟩

lemma seq_port_conns_unmatched (h : SeqWiring) (p : String)
    (hu : seq_unmatched h p) : seq_port_conns h p = .ok [] := by
  obtain ⟨h1, h2, h3, h4, h5, h6, h7, h8, h9⟩ := hu
  simp [seq_port_conns, h1, h2, h3, h4, h5, h6, h7, h8, h9]

lemma conns_list_length_le (f : String → Except CharError (List String))
    (ports : List String)
    (hok : ∀ p ∈ ports, ∃ cs, f p = .ok cs ∧ cs.length ≤ 1) :
    ∃ conns, conns_list f ports = .ok conns ∧ conns.length ≤ ports.length := by
  induction ports with
  | nil => exact ⟨[], rfl, by norm_num⟩
  | cons p rest ih =>
    obtain ⟨c, hc, hc1⟩ := hok p (List.mem_cons_self p rest)
    obtain ⟨conns, hconns, hlen⟩ :=
      ih fun q hq => hok q (List.mem_cons.mpr (Or.inr hq))
    refine ⟨c ++ conns, ?_, ?_⟩
    · simp [conns_list, hc, hconns]
    · simp only [List.length_append, List.length_cons]
      omega

lemma conns_list_length_lt (f : String → Except CharError (List String))
    (ports : List String)
    (hok : ∀ p ∈ ports, ∃ cs, f p = .ok cs ∧ cs.length ≤ 1)
    (hbad : ∃ p ∈ ports, f p = .ok []) :
    ∃ conns, conns_list f ports = .ok conns ∧ conns.length < ports.length := by
  induction ports with
  | nil => exact absurd hbad (by simp)
  | cons p rest ih =>
    obtain ⟨c, hc, hc1⟩ := hok p (List.mem_cons_self p rest)
    obtain ⟨q, hq, hfq⟩ := hbad
    rcases List.mem_cons.mp hq with rfl | hq'
    · obtain ⟨conns, hconns, hlen⟩ :=
        conns_list_length_le f rest fun r hr =>
          hok r (List.mem_cons.mpr (Or.inr hr))
      rw [hfq] at hc
      cases hc
      refine ⟨conns, ?_, ?_⟩
      · simp [conns_list, hfq, hconns]
      · simp only [List.length_cons]
        omega
    · obtain ⟨conns, hconns, hlen⟩ :=
        ih (fun r hr => hok r (List.mem_cons.mpr (Or.inr hr))) ⟨q, hq', hfq⟩
      refine ⟨c ++ conns, ?_, ?_⟩
      · simp [conns_list, hc, hconns]
      · simp only [List.length_append, List.length_cons]
        omega

/-- C5: when some definition port matches none of the harness's port roles
(target input/output, supplies, clock/set/reset for sequential cells,
stable inputs, non-target outputs), the wiring check fails with the
"Failed to match all ports" error (`wiringError`), and the whole delay
trial returns that error for EVERY simulator oracle — the error is not
caught, not retried, and the simulator result cannot mask it; this holds
for the combinational trial and the sequential trial alike.  (Hypotheses:
the harness's stable states are valid '0'/'1' values — otherwise the
earlier "Invalid state" error fires first — and its stable/non-target pin
names are duplicate-free, so each port matches at most one role entry.) -/
theorem wiring_mismatch_is_hard_error (hc : CombWiring) (hs : SeqWiring)
    (ports qorts : List String) (subckt p q : String)
    (sim sim' : List String → Except CharError ℚ)
    (hvalc : ∀ sp ∈ hc.stable_in, sp.state = "0" ∨ sp.state = "1")
    (hndc1 : (hc.stable_in.map PortState.name).Nodup)
    (hndc2 : (hc.nontarget_out.map PortState.name).Nodup)
    (hpc : p ∈ ports) (huc : comb_unmatched hc p)
    (hvals : ∀ sp ∈ hs.stable_in, sp.state = "0" ∨ sp.state = "1")
    (hnds1 : (hs.stable_in.map PortState.name).Nodup)
    (hnds2 : (hs.nontarget_out.map PortState.name).Nodup)
    (hqs : q ∈ qorts) (hus : seq_unmatched hs q) :
    comb_wire hc ports = .error .wiringError ∧
    comb_run_delay_trial hc ports sim = .error .wiringError ∧
    seq_wire hs subckt qorts = .error .wiringError ∧
    seq_run_delay_trial hs subckt qorts sim' = .error .wiringError := by
  obtain ⟨conns, hconns, hlt⟩ := conns_list_length_lt (comb_port_conns hc) ports
    (fun r hr => comb_port_conns_ok hc r hvalc hndc1 hndc2)
    ⟨p, hpc, comb_port_conns_unmatched hc p huc⟩
  obtain ⟨conns', hconns', hlt'⟩ := conns_list_length_lt (seq_port_conns hs) qorts
    (fun r hr => seq_port_conns_ok hs r hvals hnds1 hnds2)
    ⟨q, hqs, seq_port_conns_unmatched hs q hus⟩
  have hwc : comb_wire hc ports = .error .wiringError := by
    simp only [comb_wire, hconns]
    rw [if_pos (Nat.ne_of_lt hlt)]
  have hws : seq_wire hs subckt qorts = .error .wiringError := by
    simp only [seq_wire, hconns']
    rw [if_pos (show (subckt :: conns').length ≠ qorts.length + 1 by
      simp only [List.length_cons]
      omega)]
  refine ⟨hwc, ?_, hws, ?_⟩
  · simp [comb_run_delay_trial, hwc]
  · simp [seq_run_delay_trial, hws]

/-- C5 witness: a concrete combinational harness over ports
`A Y VDD VSS B` with an extra definition port `EXTRA` matching no role, and
the analogous sequential harness with clock `CLK`; both trials fail with
the wiring error for a simulator oracle that would otherwise succeed. -/
theorem wiring_mismatch_is_hard_error_witness :
    comb_wire ⟨"A", "Y", "VDD", "VSS", [⟨"B", "1"⟩], []⟩
      ["A", "Y", "VDD", "VSS", "B", "EXTRA"] = .error .wiringError ∧
    comb_run_delay_trial ⟨"A", "Y", "VDD", "VSS", [⟨"B", "1"⟩], []⟩
      ["A", "Y", "VDD", "VSS", "B", "EXTRA"] (fun _ => .ok 0) =
      .error .wiringError ∧
    seq_wire ⟨"D", "Q", "VDD", "VSS", "CLK", none, none, [], []⟩ "DFF"
      ["D", "Q", "VDD", "VSS", "CLK", "EXTRA"] = .error .wiringError ∧
    seq_run_delay_trial ⟨"D", "Q", "VDD", "VSS", "CLK", none, none, [], []⟩
      "DFF" ["D", "Q", "VDD", "VSS", "CLK", "EXTRA"] (fun _ => .ok 0) =
      .error .wiringError :=
  wiring_mismatch_is_hard_error
    ⟨"A", "Y", "VDD", "VSS", [⟨"B", "1"⟩], []⟩
    ⟨"D", "Q", "VDD", "VSS", "CLK", none, none, [], []⟩
    ["A", "Y", "VDD", "VSS", "B", "EXTRA"]
    ["D", "Q", "VDD", "VSS", "CLK", "EXTRA"] "DFF" "EXTRA" "EXTRA"
    (fun _ => .ok 0) (fun _ => .ok 0)
    (by decide) (by decide) (by decide) (by decide)
    (by exact ⟨by decide, by decide, by decide, by decide, by decide,
      by decide⟩)
    (by decide) (by decide) (by decide) (by decide)
    (by exact ⟨by decide, by decide, by decide, by decide, by decide,
      by decide, by decide, by decide, by decide⟩)

/-- The mutable state of one setup/hold binary-search loop iteration:
the bounds `t_min`/`t_max`, the comparison value `prev_t_prop`, and the
last stored trial result `harness.results[slew][load]['prop_in_out']`
(absent until a trial first succeeds). -/
structure LoopState where
  tmin : ℚ
  tmax : ℚ
  prev : ℚ
  stored : Option ℚ
deriving DecidableEq

/-- Outcome of one loop iteration: `stop t` when the accuracy check breaks
out of the loop returning `t`; `next s` to continue with updated state;
`raise e` when the trial raises an exception other than the caught
`NameError`. -/
inductive StepOut
  | stop (t : ℚ)
  | next (s : LoopState)
  | raise (e : CharError)
deriving DecidableEq

/-- The tail of a loop iteration shared by all branches (the accuracy check
and the `prev_t_prop` update of `_find_setup_time` lines 955-963 /
`_find_hold_time` lines 988-996): break when the midpoint moved by no more
than one timestep, i.e. when `not (abs(t - (t_max + t_min)/2) > timestep)`;
otherwise update `prev_t_prop` from the stored result when one exists
(`except KeyError: pass` keeps the old value when no trial has succeeded
yet). -/
def stepFinish (ts mid tmin' tmax' prev : ℚ) (stored' : Option ℚ) : StepOut :=
  if ¬ |mid - (tmax' + tmin') / 2| > ts then .stop mid
  else .next ⟨tmin', tmax', stored'.getD prev, stored'⟩

/-- One iteration of the setup/hold binary search (`_find_setup_time`
lines 941-963, `_find_hold_time` lines 974-996, structurally identical):
bisect at `(t_max + t_min)/2` and run the trial there; a trial raising
`NameError` is caught (`failed = True`) and the stored result keeps its old
value; any other exception propagates.  If the trial failed or the measured
propagation delay exceeds `prev_t_prop`, the lower bound moves up to the
midpoint; otherwise the upper bound moves down to the midpoint. -/
def searchStep (ts : ℚ) (trial : ℚ → Except CharError ℚ) (s : LoopState) :
    StepOut :=
  let mid := (s.tmax + s.tmin) / 2
  match trial mid with
  | .error CharError.nameError => stepFinish ts mid mid s.tmax s.prev s.stored
  | .error e => .raise e
  | .ok v =>
    if v > s.prev then stepFinish ts mid mid s.tmax s.prev (some v)
    else stepFinish ts mid s.tmin mid s.prev (some v)

/-- Result of a whole binary search: the returned time and the number of
loop iterations (trials) executed, a propagated exception, exhausted fuel,
or `noIter` when the `while t_min <= t_max` guard is false before the first
iteration (in which case the source would return the unbound `t_setup`). -/
inductive SearchOut
  | ok (t : ℚ) (iters : ℕ)
  | raised (e : CharError)
  | fuelOut
  | noIter
deriving DecidableEq

/-- The `while t_min <= t_max` loop of the setup/hold binary search, with
explicit fuel (the source loop has no iteration cap; the termination
theorem shows how much fuel suffices). -/
def searchLoop (ts : ℚ) (trial : ℚ → Except CharError ℚ) :
    ℕ → LoopState → SearchOut
  | 0, _ => .fuelOut
  | fuel + 1, s =>
    if s.tmin ≤ s.tmax then
      match searchStep ts trial s with
      | .stop t => .ok t 1
      | .raise e => .raised e
      | .next s' =>
        match searchLoop ts trial fuel s' with
        | .ok t k => .ok t (k + 1)
        | r => r
    else .noIter

/-- `SequentialTestManager._find_setup_time` (lines 934-965): search between
`sim_setup_lowest - sim_setup_timestep` and
`sim_setup_highest + sim_setup_timestep` with `prev_t_prop` starting at the
sentinel `1.0` (line 939, "Set a very large value") and no stored result. -/
def find_setup_time (sim_setup_highest sim_setup_lowest sim_setup_timestep : ℚ)
    (trial : ℚ → Except CharError ℚ) (fuel : ℕ) : SearchOut :=
  searchLoop sim_setup_timestep trial fuel
    ⟨sim_setup_lowest - sim_setup_timestep,
     sim_setup_highest + sim_setup_timestep, 1, none⟩

/-- `SequentialTestManager._find_hold_time` (lines 967-998): structurally
identical to `_find_setup_time`, run with the hold bounds and timestep. -/
def find_hold_time (sim_hold_highest sim_hold_lowest sim_hold_timestep : ℚ)
    (trial : ℚ → Except CharError ℚ) (fuel : ℕ) : SearchOut :=
  searchLoop sim_hold_timestep trial fuel
    ⟨sim_hold_lowest - sim_hold_timestep,
     sim_hold_highest + sim_hold_timestep, 1, none⟩

lemma stepFinish_spec (ts mid tmin' tmax' prev : ℚ) (stored' : Option ℚ)
    (L : ℚ) (habs : |mid - (tmax' + tmin') / 2| = L / 4)
    (hhalf : tmax' - tmin' = L / 2) :
    (L ≤ 4 * ts ∧ stepFinish ts mid tmin' tmax' prev stored' = .stop mid) ∨
    (4 * ts < L ∧ stepFinish ts mid tmin' tmax' prev stored' =
      .next ⟨tmin', tmax', stored'.getD prev, stored'⟩) := by
  by_cases hcmp : L ≤ 4 * ts
  · left
    refine ⟨hcmp, ?_⟩
    unfold stepFinish
    rw [if_pos (show ¬ |mid - (tmax' + tmin') / 2| > ts from
      not_lt.mpr (by rw [habs]; linarith))]
  · right
    push_neg at hcmp
    refine ⟨hcmp, ?_⟩
    unfold stepFinish
    rw [if_neg (show ¬¬ |mid - (tmax' + tmin') / 2| > ts from
      not_not_intro (by rw [habs]; linarith))]

lemma searchStep_spec (ts : ℚ) (trial : ℚ → Except CharError ℚ)
    (s : LoopState) (hle : s.tmin ≤ s.tmax)
    (htr : ∀ q e, trial q = .error e → e = CharError.nameError) :
    (s.tmax - s.tmin ≤ 4 * ts ∧
      searchStep ts trial s = .stop ((s.tmax + s.tmin) / 2)) ∨
    (4 * ts < s.tmax - s.tmin ∧ ∃ s', searchStep ts trial s = .next s' ∧
      s.tmin ≤ s'.tmin ∧ s'.tmax ≤ s.tmax ∧
      s'.tmax - s'.tmin = (s.tmax - s.tmin) / 2) := by
  have habs_up : |(s.tmax + s.tmin) / 2 - (s.tmax + (s.tmax + s.tmin) / 2) / 2|
      = (s.tmax - s.tmin) / 4 := by
    have hnn : (0 : ℚ) ≤ (s.tmax - s.tmin) / 4 := by linarith
    have he : (s.tmax + s.tmin) / 2 - (s.tmax + (s.tmax + s.tmin) / 2) / 2
        = -((s.tmax - s.tmin) / 4) := by ring
    rw [he, abs_neg, abs_of_nonneg hnn]
  have habs_dn : |(s.tmax + s.tmin) / 2 - ((s.tmax + s.tmin) / 2 + s.tmin) / 2|
      = (s.tmax - s.tmin) / 4 := by
    have hnn : (0 : ℚ) ≤ (s.tmax - s.tmin) / 4 := by linarith
    have he : (s.tmax + s.tmin) / 2 - ((s.tmax + s.tmin) / 2 + s.tmin) / 2
        = (s.tmax - s.tmin) / 4 := by ring
    rw [he, abs_of_nonneg hnn]
  have hhalf_up : s.tmax - (s.tmax + s.tmin) / 2 = (s.tmax - s.tmin) / 2 := by
    ring
  have hhalf_dn : (s.tmax + s.tmin) / 2 - s.tmin = (s.tmax - s.tmin) / 2 := by
    ring
  have hmid_ge : s.tmin ≤ (s.tmax + s.tmin) / 2 := by linarith
  have hmid_le : (s.tmax + s.tmin) / 2 ≤ s.tmax := by linarith
  unfold searchStep
  cases he : trial ((s.tmax + s.tmin) / 2) with
  | error e =>
    have hee := htr _ e he
    subst hee
    simp only [he]
    rcases stepFinish_spec ts ((s.tmax + s.tmin) / 2) ((s.tmax + s.tmin) / 2)
        s.tmax s.prev s.stored (s.tmax - s.tmin) habs_up hhalf_up with
      ⟨hl, hf⟩ | ⟨hl, hf⟩
    · exact Or.inl ⟨hl, hf⟩
    · refine Or.inr ⟨hl,
        ⟨(s.tmax + s.tmin) / 2, s.tmax, s.stored.getD s.prev, s.stored⟩,
        hf, hmid_ge, le_refl _, ?_⟩
      exact hhalf_up
  | ok v =>
    simp only [he]
    split_ifs with hv
    · rcases stepFinish_spec ts ((s.tmax + s.tmin) / 2) ((s.tmax + s.tmin) / 2)
          s.tmax s.prev (some v) (s.tmax - s.tmin) habs_up hhalf_up with
        ⟨hl, hf⟩ | ⟨hl, hf⟩
      · exact Or.inl ⟨hl, hf⟩
      · refine Or.inr ⟨hl,
          ⟨(s.tmax + s.tmin) / 2, s.tmax, (some v).getD s.prev, some v⟩,
          hf, hmid_ge, le_refl _, ?_⟩
        exact hhalf_up
    · rcases stepFinish_spec ts ((s.tmax + s.tmin) / 2) s.tmin
          ((s.tmax + s.tmin) / 2) s.prev (some v) (s.tmax - s.tmin)
          habs_dn hhalf_dn with
        ⟨hl, hf⟩ | ⟨hl, hf⟩
      · exact Or.inl ⟨hl, hf⟩
      · refine Or.inr ⟨hl,
          ⟨s.tmin, (s.tmax + s.tmin) / 2, (some v).getD s.prev, some v⟩,
          hf, le_refl _, hmid_le, ?_⟩
        exact hhalf_dn

lemma searchLoop_ok (ts : ℚ) (trial : ℚ → Except CharError ℚ)
    (htr : ∀ q e, trial q = .error e → e = CharError.nameError)
    (hts : 0 < ts) :
    ∀ k : ℕ, ∀ s : LoopState, ∀ fuel : ℕ,
      s.tmin ≤ s.tmax → s.tmax - s.tmin ≤ 2 ^ (k + 2) * ts →
      k + 1 ≤ fuel →
      ∃ t n, searchLoop ts trial fuel s = .ok t n ∧ n ≤ k + 1 ∧
        s.tmin ≤ t ∧ t ≤ s.tmax := by
  intro k
  induction k with
  | zero =>
    intro s fuel hle hL hfuel
    obtain ⟨fuel', rfl⟩ : ∃ f, fuel = f + 1 := ⟨fuel - 1, by omega⟩
    rcases searchStep_spec ts trial s hle htr with ⟨hstop, heq⟩ | ⟨hgt, _, _, _⟩
    · refine ⟨(s.tmax + s.tmin) / 2, 1, ?_, le_refl 1, by linarith, by linarith⟩
      simp only [searchLoop, if_pos hle, heq]
    · exfalso
      have : (2 : ℚ) ^ (0 + 2) * ts = 4 * ts := by norm_num
      rw [this] at hL
      linarith
  | succ k ih =>
    intro s fuel hle hL hfuel
    obtain ⟨fuel', rfl⟩ : ∃ f, fuel = f + 1 := ⟨fuel - 1, by omega⟩
    rcases searchStep_spec ts trial s hle htr with ⟨hstop, heq⟩ |
      ⟨hgt, s', heq, hs1, hs2, hs3⟩
    · refine ⟨(s.tmax + s.tmin) / 2, 1, ?_, by omega, by linarith, by linarith⟩
      simp only [searchLoop, if_pos hle, heq]
    · have hle' : s'.tmin ≤ s'.tmax := by
        have h2 : (0 : ℚ) < (s.tmax - s.tmin) / 2 := by linarith
        linarith [hs3]
      have hL' : s'.tmax - s'.tmin ≤ 2 ^ (k + 2) * ts := by
        rw [hs3]
        have : (2 : ℚ) ^ (k + 1 + 2) = 2 * 2 ^ (k + 2) := by
          rw [pow_succ]
          ring
        rw [this] at hL
        linarith
      obtain ⟨t, n, heq', hn, ht1, ht2⟩ := ih s' fuel' hle' hL' (by omega)
      refine ⟨t, n + 1, ?_, by omega, by linarith, by linarith⟩
      simp only [searchLoop, if_pos hle, heq, heq']

/-- C1 (amended): for configured bounds with `highest > lowest` and a
positive timestep, and any trial oracle whose failures are the caught
non-convergence `NameError`, BOTH binary searches terminate within
`max 1 (ceil(log2((highest - lowest) / timestep)))` iterations — fuel equal
to that bound already suffices — and the returned time lies within
`[lowest - timestep, highest + timestep]`.  (The claim's bare
`ceil(log2((highest-lowest)/timestep))` bound fails when
`highest - lowest ≤ timestep`, where it is `≤ 0` while the loop always
runs at least one iteration; `max 1 _` is the least correction.) -/
theorem find_time_terminates_within_bound
    (highest lowest timestep : ℚ) (trial : ℚ → Except CharError ℚ)
    (hlt : lowest < highest) (hts : 0 < timestep)
    (htr : ∀ q e, trial q = .error e → e = CharError.nameError) :
    ∃ t n,
      find_setup_time highest lowest timestep trial
        (max 1 (Int.clog 2 ((highest - lowest) / timestep))).toNat =
        SearchOut.ok t n ∧
      find_hold_time highest lowest timestep trial
        (max 1 (Int.clog 2 ((highest - lowest) / timestep))).toNat =
        SearchOut.ok t n ∧
      (n : ℤ) ≤ max 1 (Int.clog 2 ((highest - lowest) / timestep)) ∧
      lowest - timestep ≤ t ∧ t ≤ highest + timestep := by
  have hr : (0 : ℚ) < (highest - lowest) / timestep :=
    div_pos (by linarith) hts
  have h1 : (highest - lowest) / timestep ≤
      (2 : ℚ) ^ Int.clog 2 ((highest - lowest) / timestep) :=
    Int.self_le_zpow_clog (by norm_num) _
  have hcK : Int.clog 2 ((highest - lowest) / timestep) ≤
      max 1 (Int.clog 2 ((highest - lowest) / timestep)) := le_max_right _ _
  have hK1 : (1 : ℤ) ≤ max 1 (Int.clog 2 ((highest - lowest) / timestep)) :=
    le_max_left _ _
  have hK0 : (0 : ℤ) ≤ max 1 (Int.clog 2 ((highest - lowest) / timestep)) := by
    omega
  have h2 : (2 : ℚ) ^ Int.clog 2 ((highest - lowest) / timestep) ≤
      (2 : ℚ) ^ max 1 (Int.clog 2 ((highest - lowest) / timestep)) :=
    zpow_le_zpow_right₀ (by norm_num) hcK
  have h3 : (highest - lowest) / timestep ≤
      (2 : ℚ) ^ max 1 (Int.clog 2 ((highest - lowest) / timestep)) :=
    le_trans h1 h2
  have hH : highest - lowest ≤
      (2 : ℚ) ^ max 1 (Int.clog 2 ((highest - lowest) / timestep)) *
        timestep := by
    rw [div_le_iff₀ hts] at h3
    exact h3
  have h2K : (2 : ℚ) ≤
      (2 : ℚ) ^ max 1 (Int.clog 2 ((highest - lowest) / timestep)) := by
    calc (2 : ℚ) = 2 ^ (1 : ℤ) := (zpow_one 2).symm
    _ ≤ _ := zpow_le_zpow_right₀ (by norm_num) hK1
  have hKnat : ((max 1 (Int.clog 2 ((highest - lowest) / timestep))).toNat :
      ℤ) = max 1 (Int.clog 2 ((highest - lowest) / timestep)) :=
    Int.toNat_of_nonneg hK0
  have hzn : (2 : ℚ) ^ max 1 (Int.clog 2 ((highest - lowest) / timestep)) =
      (2 : ℚ) ^ (max 1 (Int.clog 2 ((highest - lowest) / timestep))).toNat := by
    conv_lhs => rw [← hKnat]
    rw [zpow_natCast]
  have hkn1 : 1 ≤ (max 1 (Int.clog 2 ((highest - lowest) / timestep))).toNat := by
    omega
  have hexp : (max 1 (Int.clog 2 ((highest - lowest) / timestep))).toNat - 1 + 2 =
      (max 1 (Int.clog 2 ((highest - lowest) / timestep))).toNat + 1 := by
    omega
  have hbound : (highest + timestep) - (lowest - timestep) ≤
      2 ^ ((max 1 (Int.clog 2 ((highest - lowest) / timestep))).toNat - 1 + 2) *
        timestep := by
    rw [hexp, pow_succ]
    have hpow : (2 : ℚ) ≤
        (2 : ℚ) ^ (max 1 (Int.clog 2 ((highest - lowest) / timestep))).toNat := by
      rw [← hzn]
      exact h2K
    have hH' : highest - lowest ≤
        (2 : ℚ) ^ (max 1 (Int.clog 2 ((highest - lowest) / timestep))).toNat *
          timestep := by
      rw [← hzn]
      exact hH
    have hts2 : 2 * timestep ≤
        (2 : ℚ) ^ (max 1 (Int.clog 2 ((highest - lowest) / timestep))).toNat *
          timestep := by
      have := mul_le_mul_of_nonneg_right hpow (le_of_lt hts)
      linarith
    linarith
  obtain ⟨t, n, heq, hn, ht1, ht2⟩ := searchLoop_ok timestep trial htr hts
    ((max 1 (Int.clog 2 ((highest - lowest) / timestep))).toNat - 1)
    ⟨lowest - timestep, highest + timestep, 1, none⟩
    (max 1 (Int.clog 2 ((highest - lowest) / timestep))).toNat
    (by show lowest - timestep ≤ highest + timestep; linarith)
    (by exact hbound)
    (by omega)
  refine ⟨t, n, heq, heq, ?_, ht1, ht2⟩
  rw [← hKnat]
  exact_mod_cast le_trans hn (by omega)

/-- C1 witness: bounds `(highest, lowest, timestep) = (2, 0, 1)` with an
always-converging trial; the bound is `max 1 (clog 2 2) = 1` and the search
returns within one iteration, inside `[-1, 3]`. -/
theorem find_time_terminates_within_bound_witness :
    ∃ t n,
      find_setup_time 2 0 1 (fun _ => Except.ok 0)
        (max 1 (Int.clog 2 (((2 : ℚ) - 0) / 1))).toNat = SearchOut.ok t n ∧
      find_hold_time 2 0 1 (fun _ => Except.ok 0)
        (max 1 (Int.clog 2 (((2 : ℚ) - 0) / 1))).toNat = SearchOut.ok t n ∧
      (n : ℤ) ≤ max 1 (Int.clog 2 (((2 : ℚ) - 0) / 1)) ∧
      (0 : ℚ) - 1 ≤ t ∧ t ≤ 2 + 1 :=
  find_time_terminates_within_bound 2 0 1 (fun _ => Except.ok 0)
    (by norm_num) (by norm_num)
    (fun q e h => Except.noConfusion h)

/-- C1 counterexample: at `highest = 2`, `lowest = 1`, `timestep = 1` (a
configured bound pair with `highest > lowest` and positive timestep), the
search runs exactly 1 iteration, but the claim's bound
`ceil(log2((highest - lowest)/timestep)) = ceil(log2 1) = 0` allows none:
the claimed iteration bound is violated. -/
theorem find_time_iteration_bound_counterexample :
    find_setup_time 2 1 1 (fun _ => Except.error CharError.nameError) 5 =
      SearchOut.ok (3 / 2) 1 ∧
    Int.clog 2 (((2 : ℚ) - 1) / 1) = 0 ∧
    Int.clog 2 (((2 : ℚ) - 1) / 1) < (1 : ℤ) := by
  have hc : Int.clog 2 (((2 : ℚ) - 1) / 1) = 0 := by
    have h1 : ((2 : ℚ) - 1) / 1 = 1 := by norm_num
    rw [h1]
    exact Int.clog_one_right 2
  refine ⟨?_, hc, by rw [hc]; norm_num⟩
  have habs : |(3 : ℚ) / 4| = 3 / 4 := abs_of_nonneg (by norm_num)
  norm_num [find_setup_time, searchLoop, searchStep, stepFinish, habs]

/-- C3: in each binary-search iteration at midpoint `(t_max + t_min)/2`,
(1) a trial raising the caught non-convergence `NameError`, or (2) a
measured propagation delay larger than `prev_t_prop`, moves the LOWER bound
up to the midpoint (the upper bound unchanged); (3) otherwise the UPPER
bound moves down to the midpoint; (4) `prev_t_prop` starts at the sentinel
`1.0` — far above any realistic delay in seconds — in both
`_find_setup_time` and `_find_hold_time`, so the first failing or slow
trial takes the needing-more-margin branch; and (5) a `NameError` trial
never aborts the iteration with a raised exception: the search continues
(it is recoverable at the binary-search level). -/
theorem search_branch_and_recovery (ts : ℚ) (trial : ℚ → Except CharError ℚ)
    (s : LoopState) (highest lowest : ℚ) (fuel : ℕ) :
    (trial ((s.tmax + s.tmin) / 2) = .error CharError.nameError →
      searchStep ts trial s = .stop ((s.tmax + s.tmin) / 2) ∨
      ∃ p st, searchStep ts trial s =
        .next ⟨(s.tmax + s.tmin) / 2, s.tmax, p, st⟩) ∧
    (∀ v, trial ((s.tmax + s.tmin) / 2) = .ok v → s.prev < v →
      searchStep ts trial s = .stop ((s.tmax + s.tmin) / 2) ∨
      ∃ p st, searchStep ts trial s =
        .next ⟨(s.tmax + s.tmin) / 2, s.tmax, p, st⟩) ∧
    (∀ v, trial ((s.tmax + s.tmin) / 2) = .ok v → ¬ s.prev < v →
      searchStep ts trial s = .stop ((s.tmax + s.tmin) / 2) ∨
      ∃ p st, searchStep ts trial s =
        .next ⟨s.tmin, (s.tmax + s.tmin) / 2, p, st⟩) ∧
    (find_setup_time highest lowest ts trial fuel =
      searchLoop ts trial fuel ⟨lowest - ts, highest + ts, 1, none⟩ ∧
     find_hold_time highest lowest ts trial fuel =
      searchLoop ts trial fuel ⟨lowest - ts, highest + ts, 1, none⟩) ∧
    (trial ((s.tmax + s.tmin) / 2) = .error CharError.nameError →
      ∀ e, searchStep ts trial s ≠ .raise e) := by
  refine ⟨?_, ?_, ?_, ⟨rfl, rfl⟩, ?_⟩
  · intro he
    unfold searchStep
    simp only [he]
    unfold stepFinish
    split_ifs with h <;>
      first
      | exact Or.inl rfl
      | exact Or.inr ⟨s.stored.getD s.prev, s.stored, rfl⟩
  · intro v he hv
    unfold searchStep
    simp only [he, if_pos hv]
    unfold stepFinish
    split_ifs with h <;>
      first
      | exact Or.inl rfl
      | exact Or.inr ⟨(some v).getD s.prev, some v, rfl⟩
  · intro v he hv
    unfold searchStep
    simp only [he, if_neg hv]
    unfold stepFinish
    split_ifs with h <;>
      first
      | exact Or.inl rfl
      | exact Or.inr ⟨(some v).getD s.prev, some v, rfl⟩
  · intro he e
    unfold searchStep
    simp only [he]
    unfold stepFinish
    split_ifs with h
    · exact fun hcon => StepOut.noConfusion hcon
    · exact fun hcon => StepOut.noConfusion hcon
